import Mathlib

/-!
Verification development for the deeptime covariance/TICA core and the
Gaussian HMM initial-guess heuristic.

Part A embeds `from_data` of
`src/deeptime/markov/hmm/init/gaussian/_init_gaussian_impl.py` (the
fractional-transition-count accumulation, lines 47-58) over exact rational
arithmetic.

Part B models the covariance/TICA core described by the design document.
The core implementation itself is not part of the source tree (only its test
suite is), so those definitions are modelled from the spec, as marked in the
individual doc comments, with machine floating point replaced by exact
rational arithmetic (so "equal within floating-point tolerance" becomes exact
equality).
-/

namespace DeeptimeSpec

/-! ### Part A: Gaussian initial guess, `from_data` (source file) -/

/-- Row-normalised state-probability trajectory, from source lines 53-55:
`pobs = output_model.to_state_probability_trajectory(o_t)` followed by
`pobs /= pobs.sum(axis=1)[:, None]`.  The output model call is external to
the source file, so its raw per-state probabilities are the parameter
`prob`. -/
def normalizedPobs {α : Type} (n : ℕ) (prob : α → Fin n → ℚ) (o : List α) :
    List (Fin n → ℚ) :=
  o.map (fun x j => prob x j / (∑ k, prob x k))

/-- One step of the inner accumulation loop of `from_data`, source line 58:
`Nij += np.outer(pobs[t, :], pobs[t + 1, :])`. -/
def outerAdd (n : ℕ) (N : Fin n → Fin n → ℚ)
    (ab : (Fin n → ℚ) × (Fin n → ℚ)) : Fin n → Fin n → ℚ :=
  fun i j => N i j + ab.1 i * ab.2 j

/-- The inner loop `for t in range(T - 1): Nij += np.outer(pobs[t], pobs[t+1])`
of `from_data` (source lines 57-58), seeded with the current accumulator `N`;
the consecutive index pairs `(t, t+1)` of the trajectory are exactly
`p.zip p.tail`. -/
def accumCounts (n : ℕ) (N : Fin n → Fin n → ℚ) (p : List (Fin n → ℚ)) :
    Fin n → Fin n → ℚ :=
  (p.zip p.tail).foldl (outerAdd n) N

/-- The whole count accumulation of `from_data`, source lines 48-58:
`Nij = np.zeros(...)`, then for each trajectory the inner loop adds the outer
products of consecutive rows of its normalised state-probability matrix. -/
def fromDataCounts {α : Type} (n : ℕ) (prob : α → Fin n → ℚ)
    (dtrajs : List (List α)) : Fin n → Fin n → ℚ :=
  dtrajs.foldl (fun N o => accumCounts n N (normalizedPobs n prob o))
    (fun _ _ => 0)

/-- Row `t` of the normalised state-probability matrix of trajectory `o`
(the all-zero row past the end of the trajectory). -/
def pnorm {α : Type} (n : ℕ) (prob : α → Fin n → ℚ) (o : List α) (t : ℕ) :
    Fin n → ℚ :=
  (normalizedPobs n prob o).getD t (fun _ => 0)

/-- The per-trajectory fractional transition counts written as an indexed sum
over consecutive-step pairs. -/
def trajCountSum {α : Type} (n : ℕ) (prob : α → Fin n → ℚ) (o : List α) :
    Fin n → Fin n → ℚ :=
  fun i j => ∑ t ∈ Finset.range (o.length - 1),
    pnorm n prob o t i * pnorm n prob o (t + 1) j

theorem foldl_outerAdd_seed (n : ℕ)
    (L : List ((Fin n → ℚ) × (Fin n → ℚ))) (N : Fin n → Fin n → ℚ)
    (i j : Fin n) :
    (L.foldl (outerAdd n) N) i j
      = N i j + (L.foldl (outerAdd n) (fun _ _ => 0)) i j := by
  induction L generalizing N with
  | nil => simp
  | cons ab L ih =>
    simp only [List.foldl_cons]
    rw [ih (outerAdd n N ab), ih (outerAdd n (fun _ _ => 0) ab)]
    simp [outerAdd]
    ring

theorem accumCounts_eq_sum (n : ℕ) (p : List (Fin n → ℚ)) (i j : Fin n) :
    accumCounts n (fun _ _ => 0) p i j
      = ∑ t ∈ Finset.range (p.length - 1),
          (p.getD t (fun _ => 0)) i * (p.getD (t + 1) (fun _ => 0)) j := by
  induction p with
  | nil => simp [accumCounts]
  | cons a p ih =>
    cases p with
    | nil => simp [accumCounts]
    | cons b q =>
      have hzip : ((a :: b :: q).zip (a :: b :: q).tail)
          = (a, b) :: ((b :: q).zip (b :: q).tail) := by
        simp [List.zip]
      simp only [accumCounts] at ih ⊢
      rw [hzip, List.foldl_cons,
        foldl_outerAdd_seed n ((b :: q).zip (b :: q).tail) (outerAdd n (fun _ _ => 0) (a, b)) i j,
        ih]
      have hlen : (a :: b :: q).length - 1 = (q.length + 1) := by
        simp
      rw [hlen, Finset.sum_range_succ']
      simp only [List.getD_cons_succ, List.getD_cons_zero]
      have hlen2 : (b :: q).length - 1 = q.length := by simp
      rw [hlen2]
      simp [outerAdd]
      ring

theorem fromDataCounts_eq_sum {α : Type} (n : ℕ) (prob : α → Fin n → ℚ)
    (dtrajs : List (List α)) (i j : Fin n) :
    fromDataCounts n prob dtrajs i j
      = (dtrajs.map (fun o => trajCountSum n prob o i j)).sum := by
  suffices h : ∀ (N : Fin n → Fin n → ℚ),
      (dtrajs.foldl (fun N o => accumCounts n N (normalizedPobs n prob o)) N) i j
        = N i j + (dtrajs.map (fun o => trajCountSum n prob o i j)).sum by
    have := h (fun _ _ => 0)
    simpa [fromDataCounts] using this
  induction dtrajs with
  | nil => intro N; simp
  | cons o rest ih =>
    intro N
    simp only [List.foldl_cons, List.map_cons, List.sum_cons]
    rw [ih]
    have hN : accumCounts n N (normalizedPobs n prob o) i j
        = N i j + trajCountSum n prob o i j := by
      have hs : trajCountSum n prob o i j
          = accumCounts n (fun _ _ => 0) (normalizedPobs n prob o) i j := by
        rw [accumCounts_eq_sum]
        have hl : (normalizedPobs n prob o).length = o.length := by
          simp [normalizedPobs]
        simp [trajCountSum, pnorm, hl]
      rw [hs]
      exact foldl_outerAdd_seed n _ N i j
    rw [hN]
    ring

/-- Claim C9: in `from_data`, fractional transition counts are accumulated
only within each trajectory: the count matrix equals the sum over
trajectories of the sums over consecutive-step pairs of outer products of
normalised state-probability rows, no pair spans a trajectory boundary, and
appending a trajectory of length 1 leaves the counts unchanged (it
contributes zero counts, without error). -/
theorem gaussian_init_counts_within_trajectories {α : Type} (n : ℕ)
    (prob : α → Fin n → ℚ) (dtrajs : List (List α)) (x : α) :
    (∀ i j, fromDataCounts n prob dtrajs i j
        = (dtrajs.map (fun o => trajCountSum n prob o i j)).sum)
    ∧ (∀ i j, fromDataCounts n prob (dtrajs ++ [[x]]) i j
        = fromDataCounts n prob dtrajs i j) := by
  constructor
  · intro i j
    exact fromDataCounts_eq_sum n prob dtrajs i j
  · intro i j
    rw [fromDataCounts_eq_sum, fromDataCounts_eq_sum, List.map_append,
      List.sum_append]
    simp [trajCountSum]

theorem pnorm_row_eq {α : Type} (n : ℕ) (prob : α → Fin n → ℚ)
    (o : List α) (t : ℕ) (ht : t < o.length) :
    pnorm n prob o t
      = fun j => prob (o.get ⟨t, ht⟩) j / (∑ k, prob (o.get ⟨t, ht⟩) k) := by
  simp only [pnorm, normalizedPobs, List.getD_eq_getElem?_getD,
    List.getElem?_map]
  rw [List.getElem?_eq_getElem ht]
  simp [List.get_eq_getElem]

theorem pnorm_zero_of_ge {α : Type} (n : ℕ) (prob : α → Fin n → ℚ)
    (o : List α) (t : ℕ) (ht : o.length ≤ t) :
    pnorm n prob o t = fun _ => 0 := by
  have hl : (normalizedPobs n prob o).length ≤ t := by
    simpa [normalizedPobs] using ht
  simp [pnorm, List.getD_eq_getElem?_getD, List.getElem?_eq_none hl]

theorem pnorm_nonneg {α : Type} (n : ℕ) (prob : α → Fin n → ℚ)
    (o : List α) (h1 : ∀ x ∈ o, ∀ j, 0 ≤ prob x j) (t : ℕ) (j : Fin n) :
    0 ≤ pnorm n prob o t j := by
  rcases Nat.lt_or_ge t o.length with ht | ht
  · rw [pnorm_row_eq n prob o t ht]
    have hmem := List.get_mem o t ht
    exact div_nonneg (h1 _ hmem j) (Finset.sum_nonneg fun k _ => h1 _ hmem k)
  · rw [pnorm_zero_of_ge n prob o t ht]

theorem pnorm_row_sum {α : Type} (n : ℕ) (prob : α → Fin n → ℚ)
    (o : List α) (hS : ∀ x ∈ o, (∑ k, prob x k) ≠ 0) (t : ℕ)
    (ht : t < o.length) :
    (∑ j, pnorm n prob o t j) = 1 := by
  rw [pnorm_row_eq n prob o t ht]
  rw [← Finset.sum_div, div_self (hS _ (List.get_mem o t ht))]

theorem trajCountSum_total {α : Type} (n : ℕ) (prob : α → Fin n → ℚ)
    (o : List α) (hS : ∀ x ∈ o, (∑ k, prob x k) ≠ 0) :
    (∑ i, ∑ j, trajCountSum n prob o i j) = ((o.length - 1 : ℕ) : ℚ) := by
  simp only [trajCountSum]
  have key : ∀ t ∈ Finset.range (o.length - 1),
      (∑ i : Fin n, ∑ j : Fin n,
        pnorm n prob o t i * pnorm n prob o (t + 1) j) = 1 := by
    intro t htr
    have htm := Finset.mem_range.mp htr
    have ht1 : t < o.length := by omega
    have ht2 : t + 1 < o.length := by omega
    rw [← Finset.sum_mul_sum]
    rw [pnorm_row_sum n prob o hS t ht1, pnorm_row_sum n prob o hS (t + 1) ht2]
    norm_num
  have h1 : ∀ i : Fin n,
      (∑ j : Fin n, ∑ t ∈ Finset.range (o.length - 1),
        pnorm n prob o t i * pnorm n prob o (t + 1) j)
      = ∑ t ∈ Finset.range (o.length - 1), ∑ j : Fin n,
          pnorm n prob o t i * pnorm n prob o (t + 1) j :=
    fun i => Finset.sum_comm
  rw [Finset.sum_congr rfl (fun i _ => h1 i), Finset.sum_comm,
    Finset.sum_congr rfl key]
  simp

theorem fromDataCounts_total {α : Type} (n : ℕ) (prob : α → Fin n → ℚ)
    (dtrajs : List (List α))
    (h2 : ∀ o ∈ dtrajs, ∀ x ∈ o, (∑ k, prob x k) ≠ 0) :
    (∑ i, ∑ j, fromDataCounts n prob dtrajs i j)
      = (dtrajs.map (fun o => ((o.length - 1 : ℕ) : ℚ))).sum := by
  induction dtrajs with
  | nil => simp [fromDataCounts]
  | cons o rest ih =>
    have hco : ∀ x ∈ o, (∑ k, prob x k) ≠ 0 :=
      fun x hx => h2 o (List.mem_cons_self o rest) x hx
    have hcr : ∀ o2 ∈ rest, ∀ x ∈ o2, (∑ k, prob x k) ≠ 0 :=
      fun o2 ho2 => h2 o2 (List.mem_cons_of_mem o ho2)
    have hpt : ∀ i j, fromDataCounts n prob (o :: rest) i j
        = trajCountSum n prob o i j + fromDataCounts n prob rest i j := by
      intro i j
      rw [fromDataCounts_eq_sum, List.map_cons, List.sum_cons,
        ← fromDataCounts_eq_sum]
    calc (∑ i, ∑ j, fromDataCounts n prob (o :: rest) i j)
        = (∑ i, ∑ j, (trajCountSum n prob o i j
            + fromDataCounts n prob rest i j)) := by
          exact Finset.sum_congr rfl fun i _ =>
            Finset.sum_congr rfl fun j _ => hpt i j
      _ = (∑ i, ∑ j, trajCountSum n prob o i j)
            + (∑ i, ∑ j, fromDataCounts n prob rest i j) := by
          simp [Finset.sum_add_distrib]
      _ = ((o.length - 1 : ℕ) : ℚ)
            + (rest.map (fun o => ((o.length - 1 : ℕ) : ℚ))).sum := by
          rw [trajCountSum_total n prob o hco, ih hcr]
      _ = ((o :: rest).map (fun o => ((o.length - 1 : ℕ) : ℚ))).sum := by
          rw [List.map_cons, List.sum_cons]

/-- Claim C10: in `from_data`, each row of the state-probability trajectory is
normalised to sum to 1 before accumulation; consequently, when every
observation frame has nonnegative raw output probabilities with a nonzero
total, every entry of the accumulated count matrix is nonnegative and the sum
of all entries equals the total number of consecutive-step pairs, i.e. the
sum over trajectories of (length - 1). -/
theorem gaussian_init_counts_nonneg_total {α : Type} (n : ℕ)
    (prob : α → Fin n → ℚ) (dtrajs : List (List α))
    (h1 : ∀ o ∈ dtrajs, ∀ x ∈ o, ∀ j, 0 ≤ prob x j)
    (h2 : ∀ o ∈ dtrajs, ∀ x ∈ o, (∑ k, prob x k) ≠ 0) :
    (∀ o ∈ dtrajs, ∀ t, t < o.length → (∑ j, pnorm n prob o t j) = 1)
    ∧ (∀ i j, 0 ≤ fromDataCounts n prob dtrajs i j)
    ∧ (∑ i, ∑ j, fromDataCounts n prob dtrajs i j)
        = (dtrajs.map (fun o => ((o.length - 1 : ℕ) : ℚ))).sum := by
  refine ⟨?_, ?_, ?_⟩
  · intro o ho t ht
    exact pnorm_row_sum n prob o (h2 o ho) t ht
  · intro i j
    rw [fromDataCounts_eq_sum]
    apply List.sum_nonneg
    intro a ha
    rcases List.mem_map.mp ha with ⟨o, ho, rfl⟩
    apply Finset.sum_nonneg
    intro t _
    exact mul_nonneg (pnorm_nonneg n prob o (h1 o ho) t i)
      (pnorm_nonneg n prob o (h1 o ho) (t + 1) j)
  · exact fromDataCounts_total n prob dtrajs h2

/-! ### Part B: covariance/TICA core, modelled from the spec -/

/-- Modelled from the spec: the `CovarianceAccumulator` of section 4.1/9 is
missing from the source tree (only its test suite is present).  It owns
running moment sums plus the pair count: count, first moments of the
instantaneous and lagged members of each pair, and second-moment accumulators
(instantaneous, cross, and lagged), with merging by component-wise sums. -/
structure RunningMoments (F : ℕ) where
  cnt : ℕ
  sx : Fin F → ℚ
  sy : Fin F → ℚ
  sxx : Fin F → Fin F → ℚ
  sxy : Fin F → Fin F → ℚ
  syy : Fin F → Fin F → ℚ
deriving DecidableEq

/-- Modelled from the spec: submitting one (instantaneous, lagged) pair adds
its contribution to every moment sum. -/
def addPair {F : ℕ} (m : RunningMoments F)
    (xy : (Fin F → ℚ) × (Fin F → ℚ)) : RunningMoments F where
  cnt := m.cnt + 1
  sx := fun i => m.sx i + xy.1 i
  sy := fun i => m.sy i + xy.2 i
  sxx := fun i j => m.sxx i j + xy.1 i * xy.1 j
  sxy := fun i j => m.sxy i j + xy.1 i * xy.2 j
  syy := fun i j => m.syy i j + xy.2 i * xy.2 j

/-- Modelled from the spec: the accumulator is created empty. -/
def emptyMoments (F : ℕ) : RunningMoments F :=
  ⟨0, fun _ => 0, fun _ => 0, fun _ _ => 0, fun _ _ => 0, fun _ _ => 0⟩

/-- Modelled from the spec: one submission call hands the accumulator a chunk
of (instantaneous, lagged) pairs, which it folds into its running sums. -/
def addChunk {F : ℕ} (m : RunningMoments F)
    (chunk : List ((Fin F → ℚ) × (Fin F → ℚ))) : RunningMoments F :=
  chunk.foldl addPair m

/-- Modelled from the spec: lag-pairing of a single trajectory pairs frame `t`
with frame `t + lag`, and is formed within one trajectory only. -/
def lagPairs {F : ℕ} (lag : ℕ) (traj : List (Fin F → ℚ)) :
    List ((Fin F → ℚ) × (Fin F → ℚ)) :=
  traj.zip (traj.drop lag)

/-- Modelled from the spec: repeated submission, one call per chunk. -/
def accumulateChunks (F : ℕ)
    (parts : List (List ((Fin F → ℚ) × (Fin F → ℚ)))) : RunningMoments F :=
  parts.foldl addChunk (emptyMoments F)

/-- Modelled from the spec: mean of the instantaneous members of the pairs. -/
def mean0 {F : ℕ} (m : RunningMoments F) : Fin F → ℚ :=
  fun i => m.sx i / (m.cnt : ℚ)

/-- Modelled from the spec: mean of the lagged members of the pairs. -/
def meanT {F : ℕ} (m : RunningMoments F) : Fin F → ℚ :=
  fun i => m.sy i / (m.cnt : ℚ)

/-- Modelled from the spec: mean-removed instantaneous covariance. -/
def cov00 {F : ℕ} (m : RunningMoments F) : Fin F → Fin F → ℚ :=
  fun i j => m.sxx i j / (m.cnt : ℚ) - mean0 m i * mean0 m j

/-- Modelled from the spec: mean-removed time-lagged cross-covariance. -/
def cov0t {F : ℕ} (m : RunningMoments F) : Fin F → Fin F → ℚ :=
  fun i j => m.sxy i j / (m.cnt : ℚ) - mean0 m i * meanT m j

/-- Modelled from the spec: mean-removed instantaneous covariance of the
lagged series. -/
def covtt {F : ℕ} (m : RunningMoments F) : Fin F → Fin F → ℚ :=
  fun i j => m.syy i j / (m.cnt : ℚ) - meanT m i * meanT m j

theorem foldl_addChunk_flatten (F : ℕ)
    (parts : List (List ((Fin F → ℚ) × (Fin F → ℚ))))
    (s : RunningMoments F) :
    parts.foldl addChunk s = addChunk s parts.flatten := by
  induction parts generalizing s with
  | nil => simp [addChunk]
  | cons c ps ih =>
    simp only [List.foldl_cons, List.flatten_cons]
    rw [ih (addChunk s c)]
    simp [addChunk, List.foldl_append]

/-- Claim C1: for every dataset of (instantaneous, lagged) pairs — lag-paired
per trajectory, never across trajectory boundaries — and every way of
splitting it across multiple submission calls, the accumulated moments, and
hence the derived covariance statistics, over the split submissions equal
those of a single pass over the whole dataset.  In the exact-rational model
the floating-point tolerance of the claim sharpens to exact equality. -/
theorem tica_accumulation_split_invariant (F lag : ℕ)
    (trajs : List (List (Fin F → ℚ)))
    (parts : List (List ((Fin F → ℚ) × (Fin F → ℚ))))
    (h : parts.flatten = (trajs.map (lagPairs lag)).flatten) :
    accumulateChunks F parts
        = addChunk (emptyMoments F) ((trajs.map (lagPairs lag)).flatten)
    ∧ mean0 (accumulateChunks F parts)
        = mean0 (addChunk (emptyMoments F) ((trajs.map (lagPairs lag)).flatten))
    ∧ cov00 (accumulateChunks F parts)
        = cov00 (addChunk (emptyMoments F) ((trajs.map (lagPairs lag)).flatten))
    ∧ cov0t (accumulateChunks F parts)
        = cov0t (addChunk (emptyMoments F) ((trajs.map (lagPairs lag)).flatten)) := by
  have hmain : accumulateChunks F parts
      = addChunk (emptyMoments F) ((trajs.map (lagPairs lag)).flatten) := by
    rw [accumulateChunks, foldl_addChunk_flatten, h]
  exact ⟨hmain, by rw [hmain], by rw [hmain], by rw [hmain]⟩

/-- Modelled from the spec: reversible symmetrization of section 4.2,
`cov_00_sym = (cov_00 + cov_tt) / 2`. -/
def cov00sym {F : ℕ} (m : RunningMoments F) : Fin F → Fin F → ℚ :=
  fun i j => (cov00 m i j + covtt m i j) / 2

/-- Modelled from the spec: reversible symmetrization of section 4.2,
`cov_0t_sym = (cov_0t + cov_0t^T) / 2`. -/
def cov0tsym {F : ℕ} (m : RunningMoments F) : Fin F → Fin F → ℚ :=
  fun i j => (cov0t m i j + cov0t m j i) / 2

/-- Modelled from the spec: the error taxonomy of section 7 relevant to
solving; `ZeroRankError` is terminal for a fit attempt. -/
inductive SolveError where
  | zeroRank
deriving DecidableEq

/-- Modelled from the spec: the model bundle of section 3 — the originating
covariance statistics plus a total transform.  The spectral decomposition
itself involves irrational eigenvalues and is not representable in exact
rational arithmetic; the model keeps the mean-removing part of the transform,
which is what expresses that `transform` is total ("without error"). -/
structure TicaModel (F : ℕ) where
  mean : Fin F → ℚ
  c00 : Fin F → Fin F → ℚ
  c0t : Fin F → Fin F → ℚ
deriving DecidableEq

/-- Modelled from the spec: applying the model to a frame first removes the
training mean; total on every input. -/
def TicaModel.transform {F : ℕ} (M : TicaModel F) (x : Fin F → ℚ) :
    Fin F → ℚ :=
  fun i => x i - M.mean i

/-- Modelled from the spec: the reversible solve path of section 4.3 whitens
the symmetrized instantaneous covariance and fails with `ZeroRankError` when
its effective rank (eigenvalues above `epsilon` times the largest eigenvalue)
drops to zero.  In exact arithmetic a positive-semidefinite covariance has
zero effective rank exactly when it is the zero matrix, which is the decidable
condition used here; otherwise model construction is all-or-nothing. -/
def solveReversible {F : ℕ} (m : RunningMoments F) :
    Except SolveError (TicaModel F) :=
  if ∀ i j, cov00sym m i j = 0 then Except.error SolveError.zeroRank
  else Except.ok ⟨mean0 m, cov00 m, cov0t m⟩

/-- Ten all-zero features over five frames (the constant-feature scenario). -/
def zeroTraj : List (Fin 10 → ℚ) := List.replicate 5 (fun _ => 0)

/-- A second trajectory with nonzero variance in time: frames alternate
between all-zero and all-one. -/
def mixedTraj : List (Fin 10 → ℚ) :=
  [fun _ => 0, fun _ => 1, fun _ => 0, fun _ => 1, fun _ => 0]

/-- The statistics after the first submission: only the constant all-zero
features, lag-paired at lag 1. -/
def statsZ : RunningMoments 10 := addChunk (emptyMoments 10) (lagPairs 1 zeroTraj)

/-- The statistics after a second submission of the nonzero-variance
trajectory into the same accumulator. -/
def statsZM : RunningMoments 10 := addChunk statsZ (lagPairs 1 mixedTraj)

/-- Claim C2: solving on statistics accumulated from only constant (all-zero)
features at lag 1 with reversible symmetrization raises `ZeroRankError`; after
a nonzero-variance trajectory is accumulated in a second submission into the
same accumulator, solving the merged statistics does not raise, and the
produced model's `transform` is defined (evaluated here at the zero frame). -/
theorem tica_constant_features_zero_rank :
    solveReversible statsZ = Except.error SolveError.zeroRank
    ∧ (solveReversible statsZM).isOk = true
    ∧ (solveReversible statsZM).map
        (fun M => M.transform (fun _ => 0) 0) = Except.ok (-(1 / 4)) := by
  have hz : ∀ i j, cov00sym statsZ i j = 0 := by
    intro i j
    norm_num [cov00sym, cov00, covtt, mean0, meanT, statsZ, addChunk, lagPairs,
      zeroTraj, addPair, emptyMoments, List.replicate]
  have hval : cov00sym statsZM 0 0 = 3 / 16 := by
    norm_num [cov00sym, cov00, covtt, mean0, meanT, statsZM, statsZ, addChunk,
      lagPairs, zeroTraj, mixedTraj, addPair, emptyMoments, List.replicate]
  have hnz : ¬ ∀ i j, cov00sym statsZM i j = 0 := by
    intro h
    have h00 := h 0 0
    rw [hval] at h00
    norm_num at h00
  refine ⟨?_, ?_, ?_⟩
  · rw [solveReversible, if_pos hz]
  · rw [solveReversible, if_neg hnz]
    rfl
  · rw [solveReversible, if_neg hnz]
    simp only [Except.map, TicaModel.transform]
    have hm : mean0 statsZM 0 = 1 / 4 := by
      norm_num [mean0, statsZM, statsZ, addChunk, lagPairs, zeroTraj,
        mixedTraj, addPair, emptyMoments, List.replicate]
    rw [hm]
    norm_num

/-- Modelled from the spec: the user dimension request of section 4.4 — an
explicit integer count, a variance fraction, or unset ("keep all above
epsilon").  The integer/fraction distinction mirrors the Python `int`/`float`
type distinction of `dim`. -/
inductive DimRequest where
  | unset
  | count (k : ℤ)
  | fraction (f : ℚ)
deriving DecidableEq

/-- The requests the spec declares valid: any positive integer count, any
fraction in (0, 1], or unset. -/
def validRequest : DimRequest → Prop
  | DimRequest.unset => True
  | DimRequest.count k => 0 < k
  | DimRequest.fraction f => 0 < f ∧ f ≤ 1

instance : DecidablePred validRequest := by
  intro d
  cases d <;> simp only [validRequest] <;> infer_instance

/-- Modelled from the spec: the construction-time error of section 7 raised
for an invalid dimension request (`ValueError` in the tests). -/
inductive ConstructionError where
  | valueError
deriving DecidableEq

/-- Modelled from the spec: eager validation of the dimension request —
integer ≤ 0, fraction ≤ 0 and fraction > 1 are rejected, everything else is
passed through. -/
def validateDim : DimRequest → Except ConstructionError DimRequest
  | DimRequest.unset => Except.ok DimRequest.unset
  | DimRequest.count k =>
      if 0 < k then Except.ok (DimRequest.count k)
      else Except.error ConstructionError.valueError
  | DimRequest.fraction f =>
      if 0 < f ∧ f ≤ 1 then Except.ok (DimRequest.fraction f)
      else Except.error ConstructionError.valueError

/-- Modelled from the spec: a fitted model carries a fresh creation sequence
number besides its covariance statistics, reflecting that two models are
distinct objects even when built from equivalent statistics (identity is not
value-based). -/
structure FittedModel (F : ℕ) where
  modelId : ℕ
  m0 : Fin F → ℚ
  c00 : Fin F → Fin F → ℚ
  c0t : Fin F → Fin F → ℚ
deriving DecidableEq

/-- Modelled from the spec: the estimator object holds its configured
dimension request, the number of fits performed so far, and the current
fitted model, if any. -/
structure Estimator (F : ℕ) where
  dim : DimRequest
  fitCount : ℕ
  current : Option (FittedModel F)
deriving DecidableEq

/-- Modelled from the spec: estimator construction validates the dimension
request eagerly; note the type — no data is examined and no fitting occurs. -/
def mkEstimator (F : ℕ) (d : DimRequest) :
    Except ConstructionError (Estimator F) :=
  (validateDim d).map (fun d0 => ⟨d0, 0, none⟩)

/-- Modelled from the spec: fitting from accumulated statistics replaces the
current model with a freshly created one built from those statistics alone. -/
def fitFromStats {F : ℕ} (e : Estimator F) (m : RunningMoments F) :
    Estimator F :=
  { e with
    fitCount := e.fitCount + 1
    current := some ⟨e.fitCount + 1, mean0 m, cov00 m, cov0t m⟩ }

/-- Modelled from the spec: `fetch_model` exposes the current fitted model. -/
def fetchModel {F : ℕ} (e : Estimator F) : Option (FittedModel F) :=
  e.current

/-- Claim C4: constructing an estimator with a dimension request that is an
integer ≤ 0, a fraction ≤ 0 or a fraction > 1 fails with `ValueError`, and
exactly the valid requests (positive integers, fractions in (0, 1], unset)
are accepted; the validation is performed by construction alone, which by its
type examines no data and performs no fitting. -/
theorem tica_dim_validation (F : ℕ) (d : DimRequest) :
    ((∃ e, mkEstimator F d = Except.ok e) ↔ validRequest d)
    ∧ (mkEstimator F d = Except.error ConstructionError.valueError
        ↔ ¬ validRequest d) := by
  cases d with
  | unset =>
    simp [mkEstimator, validateDim, validRequest, Except.map]
  | count k =>
    by_cases hk : 0 < k
    · simp [mkEstimator, validateDim, validRequest, hk, Except.map]
    · simp [mkEstimator, validateDim, validRequest, hk, Except.map]
  | fraction f =>
    by_cases hf : 0 < f ∧ f ≤ 1
    · simp [mkEstimator, validateDim, validRequest, hf, Except.map]
    · simp only [mkEstimator, validateDim, validRequest, if_neg hf, Except.map]
      simp [hf]

/-- Claim C8: re-fitting an existing estimator with new statistics replaces
the previously fitted model: the second model is built from the second
statistics alone, it is a distinct object from the first (identity is not
value-based, modelled by the creation sequence number), and when the two
submissions carry equal statistics the two models nevertheless have equal
`mean_0`, `cov_00` and `cov_0t`. -/
theorem tica_refit_replaces (F : ℕ) (e : Estimator F)
    (s1 s2 : RunningMoments F)
    (hm : mean0 s1 = mean0 s2) (hc0 : cov00 s1 = cov00 s2)
    (hct : cov0t s1 = cov0t s2) :
    ∃ M1 M2,
      fetchModel (fitFromStats e s1) = some M1
      ∧ fetchModel (fitFromStats (fitFromStats e s1) s2) = some M2
      ∧ M2.m0 = mean0 s2 ∧ M2.c00 = cov00 s2 ∧ M2.c0t = cov0t s2
      ∧ M1 ≠ M2
      ∧ M1.m0 = M2.m0 ∧ M1.c00 = M2.c00 ∧ M1.c0t = M2.c0t := by
  refine ⟨⟨e.fitCount + 1, mean0 s1, cov00 s1, cov0t s1⟩,
    ⟨e.fitCount + 2, mean0 s2, cov00 s2, cov0t s2⟩, rfl, rfl, rfl, rfl, rfl,
    ?_, hm, hc0, hct⟩
  intro hcontra
  have hid := congrArg FittedModel.modelId hcontra
  simp at hid

/-- Square of a rational value. -/
def sqv (v : ℚ) : ℚ := v * v

/-- Sum of the squares of the first `k` ranked values (values past the end of
the list contribute nothing). -/
def sqUpTo (vals : List ℚ) (k : ℕ) : ℚ :=
  ∑ t ∈ Finset.range k, sqv (vals.getD t 0)

/-- Sum of the squares of all computed values. -/
def sqTotal (vals : List ℚ) : ℚ := (vals.map sqv).sum

/-- Running cumulative sums of squares of the ranked values: entry `i` is the
sum of squares of the first `i + 1` values. -/
def cumSq (vals : List ℚ) : List ℚ :=
  (List.range vals.length).map (fun i => sqUpTo vals (i + 1))

/-- Modelled from the spec: fractional dimension selection of section 4.4 —
the length of the smallest prefix of the ranked components whose cumulative
squared-value sum reaches or exceeds the fraction `f` of the total squared
value over all computed components. -/
def fracDim (f : ℚ) (vals : List ℚ) : ℕ :=
  match vals with
  | [] => 0
  | _ :: _ =>
      (cumSq vals).findIdx (fun c => decide (f * sqTotal vals ≤ c)) + 1

/-- Modelled from the spec: the `DimensionSelector` of section 4.4 applied to
the ranked values surviving the solver's epsilon truncation — an explicit
count is clipped to the available rank, a fraction selects the smallest
sufficient prefix, unset keeps every surviving component. -/
def resolveDim : DimRequest → List ℚ → ℕ
  | DimRequest.unset, vals => vals.length
  | DimRequest.count k, vals => min k.toNat vals.length
  | DimRequest.fraction f, vals => fracDim f vals

theorem sqv_nonneg (v : ℚ) : 0 ≤ sqv v := mul_self_nonneg v

theorem sqUpTo_mono (vals : List ℚ) {k m : ℕ} (h : k ≤ m) :
    sqUpTo vals k ≤ sqUpTo vals m := by
  apply Finset.sum_le_sum_of_subset_of_nonneg
  · exact Finset.range_subset.mpr h
  · intro t _ _
    exact sqv_nonneg _

theorem sum_range_map_eq (f : ℚ → ℚ) (l : List ℚ) :
    (∑ t ∈ Finset.range l.length, f (l.getD t 0)) = (l.map f).sum := by
  induction l with
  | nil => simp
  | cons a l ih =>
    rw [List.length_cons, Finset.sum_range_succ']
    simp only [List.getD_cons_succ, List.getD_cons_zero, List.map_cons,
      List.sum_cons]
    rw [ih]
    ring

theorem sqUpTo_length (vals : List ℚ) : sqUpTo vals vals.length = sqTotal vals :=
  sum_range_map_eq sqv vals

theorem sqTotal_nonneg (vals : List ℚ) : 0 ≤ sqTotal vals :=
  List.sum_nonneg (by
    intro a ha
    rcases List.mem_map.mp ha with ⟨v, _, rfl⟩
    exact sqv_nonneg v)

theorem cumSq_length (vals : List ℚ) : (cumSq vals).length = vals.length := by
  simp [cumSq]

theorem cumSq_getD (vals : List ℚ) (i : ℕ) (h : i < vals.length) :
    (cumSq vals).getD i 0 = sqUpTo vals (i + 1) := by
  rw [cumSq, List.getD_eq_getElem?_getD, List.getElem?_map]
  rw [List.getElem?_range h]
  rfl

theorem sqTotal_mem_cumSq (vals : List ℚ) (hne : vals ≠ []) :
    sqTotal vals ∈ cumSq vals := by
  have hlen : 0 < vals.length := List.length_pos.mpr hne
  rw [← sqUpTo_length]
  apply List.mem_map.mpr
  refine ⟨vals.length - 1, ?_, ?_⟩
  · exact List.mem_range.mpr (by omega)
  · congr 1
    omega

theorem fracDim_le_length {f : ℚ} (hf1 : f ≤ 1) (vals : List ℚ) :
    fracDim f vals ≤ vals.length := by
  cases vals with
  | nil => simp [fracDim]
  | cons v rest =>
    show (cumSq (v :: rest)).findIdx _ + 1 ≤ (v :: rest).length
    have hlt : (cumSq (v :: rest)).findIdx
        (fun c => decide (f * sqTotal (v :: rest) ≤ c))
        < (cumSq (v :: rest)).length := by
      apply List.findIdx_lt_length_of_exists
      refine ⟨sqTotal (v :: rest), sqTotal_mem_cumSq _ (by simp), ?_⟩
      simp only [decide_eq_true_eq]
      calc f * sqTotal (v :: rest) ≤ 1 * sqTotal (v :: rest) := by
            exact mul_le_mul_of_nonneg_right hf1 (sqTotal_nonneg _)
        _ = sqTotal (v :: rest) := one_mul _
    rw [cumSq_length] at hlt
    omega

/-- Claim C3: for every valid dimension request the resolved output dimension
is at most the solver-truncated rank (the number of surviving ranked values),
and for an explicit positive integer request `k` it equals `min k rank` —
requesting more components than the available rank silently returns the
available rank rather than raising. -/
theorem tica_resolved_dim_le_rank (d : DimRequest) (vals : List ℚ)
    (hv : validRequest d) :
    resolveDim d vals ≤ vals.length
    ∧ (∀ k : ℤ, d = DimRequest.count k
        → resolveDim d vals = min k.toNat vals.length) := by
  constructor
  · cases d with
    | unset => exact Nat.le_refl _
    | count k => exact Nat.min_le_right _ _
    | fraction f => exact fracDim_le_length hv.2 vals
  · intro k hk
    subst hk
    rfl

theorem fracDim_reaches {f : ℚ} (hf1 : f ≤ 1) (vals : List ℚ) :
    f * sqTotal vals ≤ sqUpTo vals (fracDim f vals) := by
  cases vals with
  | nil =>
    simp only [fracDim, sqUpTo, sqTotal, List.map_nil, List.sum_nil, mul_zero]
    simp
  | cons v rest =>
    set p : ℚ → Bool := fun c => decide (f * sqTotal (v :: rest) ≤ c) with hp
    have hlt : (cumSq (v :: rest)).findIdx p < (cumSq (v :: rest)).length := by
      apply List.findIdx_lt_length_of_exists
      refine ⟨sqTotal (v :: rest), sqTotal_mem_cumSq _ (by simp), ?_⟩
      simp only [hp, decide_eq_true_eq]
      calc f * sqTotal (v :: rest) ≤ 1 * sqTotal (v :: rest) :=
            mul_le_mul_of_nonneg_right hf1 (sqTotal_nonneg _)
        _ = sqTotal (v :: rest) := one_mul _
    have hsat := @List.findIdx_getElem _ p (cumSq (v :: rest)) hlt
    have hgd : (cumSq (v :: rest)).getD ((cumSq (v :: rest)).findIdx p) 0
        = sqUpTo (v :: rest) ((cumSq (v :: rest)).findIdx p + 1) := by
      apply cumSq_getD
      rw [← cumSq_length (v :: rest)]
      exact hlt
    have hval : ((cumSq (v :: rest)).getD ((cumSq (v :: rest)).findIdx p) 0)
        = (cumSq (v :: rest)).get ⟨(cumSq (v :: rest)).findIdx p, hlt⟩ := by
      rw [List.getD_eq_getElem _ _ hlt]
      simp
    rw [hval] at hgd
    have : f * sqTotal (v :: rest)
        ≤ (cumSq (v :: rest)).get ⟨(cumSq (v :: rest)).findIdx p, hlt⟩ := by
      have := hsat
      simp only [hp, List.get_eq_getElem, decide_eq_true_eq] at this ⊢
      exact this
    rw [hgd] at this
    exact this

theorem fracDim_minimal {f : ℚ} (hf0 : 0 < f) (vals : List ℚ)
    (hnz : ∀ v ∈ vals, v ≠ 0) {m : ℕ} (hm : m < fracDim f vals) :
    sqUpTo vals m < f * sqTotal vals := by
  cases vals with
  | nil => simp [fracDim] at hm
  | cons v rest =>
    set p : ℚ → Bool := fun c => decide (f * sqTotal (v :: rest) ≤ c) with hp
    have hpos : 0 < sqTotal (v :: rest) := by
      apply List.sum_pos
      · intro a ha
        rcases List.mem_map.mp ha with ⟨w, hw, rfl⟩
        have := hnz w hw
        rcases lt_or_gt_of_ne this with hlt | hgt
        · exact mul_pos_of_neg_of_neg hlt hlt
        · exact mul_pos hgt hgt
      · simp
    cases m with
    | zero =>
      simp only [sqUpTo, Finset.range_zero, Finset.sum_empty]
      exact mul_pos hf0 hpos
    | succ m0 =>
      have hm0 : m0 < (cumSq (v :: rest)).findIdx p := by
        rw [hp]
        simp only [fracDim] at hm
        omega
      have hfail := List.not_of_lt_findIdx hm0
      have hm0len : m0 < (cumSq (v :: rest)).length :=
        Nat.lt_of_lt_of_le hm0 (List.findIdx_le_length p)
      have hgd : (cumSq (v :: rest)).getD m0 0 = sqUpTo (v :: rest) (m0 + 1) := by
        apply cumSq_getD
        rw [← cumSq_length (v :: rest)]
        exact hm0len
      have hval : (cumSq (v :: rest)).getD m0 0
          = (cumSq (v :: rest)).get ⟨m0, hm0len⟩ := by
        rw [List.getD_eq_getElem _ _ hm0len]
        simp
      rw [hval] at hgd
      have : ¬ (f * sqTotal (v :: rest)
          ≤ (cumSq (v :: rest)).get ⟨m0, hm0len⟩) := by
        intro hc
        have : p ((cumSq (v :: rest)).get ⟨m0, hm0len⟩) = true := by
          simp only [hp, decide_eq_true_eq]
          exact hc
        simp only [List.get_eq_getElem] at this
        rw [this] at hfail
        exact Bool.noConfusion hfail
      rw [hgd] at this
      exact lt_of_not_le this

theorem sqUpTo_lt_total (vals : List ℚ) (hnz : ∀ v ∈ vals, v ≠ 0) {k : ℕ}
    (hk : k < vals.length) : sqUpTo vals k < sqTotal vals := by
  have hstep : sqUpTo vals k < sqUpTo vals (k + 1) := by
    rw [sqUpTo, sqUpTo, Finset.sum_range_succ]
    have hvk : vals.getD k 0 ≠ 0 := by
      rw [List.getD_eq_getElem _ _ hk]
      apply hnz
      exact List.getElem_mem hk
    have : 0 < sqv (vals.getD k 0) := by
      rcases lt_or_gt_of_ne hvk with hlt | hgt
      · exact mul_pos_of_neg_of_neg hlt hlt
      · exact mul_pos hgt hgt
    linarith
  calc sqUpTo vals k < sqUpTo vals (k + 1) := hstep
    _ ≤ sqUpTo vals vals.length := sqUpTo_mono vals hk
    _ = sqTotal vals := sqUpTo_length vals

/-- Claim C5: for a fractional dimension request `f` in (0, 1] over ranked
values that all survived epsilon truncation (hence are nonzero), the resolved
output dimension is the length of the smallest prefix whose cumulative
squared-value sum reaches or exceeds the fraction `f` of the total squared
value of all computed components; and `f = 1` retains exactly the solver's
full truncated rank. -/
theorem tica_fraction_dim_smallest (f : ℚ) (vals : List ℚ)
    (hf0 : 0 < f) (hf1 : f ≤ 1) (hnz : ∀ v ∈ vals, v ≠ 0) :
    f * sqTotal vals ≤ sqUpTo vals (resolveDim (DimRequest.fraction f) vals)
    ∧ (∀ m < resolveDim (DimRequest.fraction f) vals,
        sqUpTo vals m < f * sqTotal vals)
    ∧ resolveDim (DimRequest.fraction 1) vals = vals.length := by
  refine ⟨fracDim_reaches hf1 vals, fun m hm => fracDim_minimal hf0 vals hnz hm, ?_⟩
  show fracDim 1 vals = vals.length
  have hle : fracDim 1 vals ≤ vals.length := fracDim_le_length le_rfl vals
  rcases Nat.lt_or_ge (fracDim 1 vals) vals.length with hlt | hge
  · exfalso
    have hreach : (1 : ℚ) * sqTotal vals ≤ sqUpTo vals (fracDim 1 vals) :=
      fracDim_reaches le_rfl vals
    have hless : sqUpTo vals (fracDim 1 vals) < sqTotal vals :=
      sqUpTo_lt_total vals hnz hlt
    rw [one_mul] at hreach
    exact absurd hreach (not_le_of_lt hless)
  · omega

/-- Modelled from the spec: the cumulative kinetic variance of section 4.5 —
entry `i` is the sum of squared values of the first `i + 1` components
surviving epsilon truncation (`kept`), divided by the sum of squared values
of all solver-computed components (`allVals`, before dimension truncation). -/
def cumKinVar (allVals kept : List ℚ) : List ℚ :=
  (cumSq kept).map (fun c => c / sqTotal allVals)

theorem cumKinVar_length (allVals kept : List ℚ) :
    (cumKinVar allVals kept).length = kept.length := by
  simp [cumKinVar, cumSq_length]

theorem cumKinVar_getD (allVals kept : List ℚ) (i : ℕ) (h : i < kept.length) :
    (cumKinVar allVals kept).getD i 0
      = sqUpTo kept (i + 1) / sqTotal allVals := by
  have hc : i < (cumSq kept).length := by
    rw [cumSq_length]
    exact h
  rw [cumKinVar, List.getD_eq_getElem?_getD, List.getElem?_map,
    List.getElem?_eq_getElem hc]
  simp only [Option.map_some', Option.getD_some]
  congr 1
  have := cumSq_getD kept i h
  rw [List.getD_eq_getElem _ _ hc] at this
  exact this

theorem sqTotal_append (l1 l2 : List ℚ) :
    sqTotal (l1 ++ l2) = sqTotal l1 + sqTotal l2 := by
  simp [sqTotal]

theorem cumKinVar_last (allVals kept : List ℚ) (hne : kept ≠ []) :
    (cumKinVar allVals kept).getLastD 0 = sqTotal kept / sqTotal allVals := by
  have hlen : 0 < kept.length := List.length_pos.mpr hne
  have hlen2 : (cumKinVar allVals kept).length = kept.length :=
    cumKinVar_length allVals kept
  rw [List.getLastD_eq_getLast?, List.getLast?_eq_getElem?]
  have hidx : kept.length - 1 < kept.length := by omega
  have : (cumKinVar allVals kept)[(cumKinVar allVals kept).length - 1]?.getD 0
      = (cumKinVar allVals kept).getD ((cumKinVar allVals kept).length - 1) 0 := by
    rw [List.getD_eq_getElem?_getD]
  rw [this, hlen2, cumKinVar_getD allVals kept (kept.length - 1) hidx]
  congr 1
  have : kept.length - 1 + 1 = kept.length := by omega
  rw [this, sqUpTo_length]

/-- Claim C7: the cumulative kinetic variance at index `i` equals the sum of
squared values of the first `i+1` retained components divided by the sum of
squared values of all solver-computed components before dimension truncation;
the sequence is monotonically non-decreasing, its final entry is at most 1,
and the final entry equals 1 whenever epsilon truncation removed nothing (and
the total squared value is nonzero). -/
theorem tica_cumvar_monotone_bounded (allVals kept rest : List ℚ)
    (h : allVals = kept ++ rest) :
    (∀ i, i < kept.length → (cumKinVar allVals kept).getD i 0
        = sqUpTo kept (i + 1) / sqTotal allVals)
    ∧ (∀ i, i + 1 < kept.length →
        (cumKinVar allVals kept).getD i 0
          ≤ (cumKinVar allVals kept).getD (i + 1) 0)
    ∧ (cumKinVar allVals kept).getLastD 0 ≤ 1
    ∧ (rest = [] → sqTotal allVals ≠ 0
        → (cumKinVar allVals kept).getLastD 0 = 1) := by
  have hTnn : 0 ≤ sqTotal allVals := sqTotal_nonneg allVals
  have hkle : sqTotal kept ≤ sqTotal allVals := by
    rw [h, sqTotal_append]
    have := sqTotal_nonneg rest
    linarith
  refine ⟨fun i hi => cumKinVar_getD allVals kept i hi, ?_, ?_, ?_⟩
  · intro i hi1
    have hi : i < kept.length := by omega
    rw [cumKinVar_getD allVals kept i hi, cumKinVar_getD allVals kept (i + 1) hi1]
    rcases eq_or_lt_of_le hTnn with hT0 | hTpos
    · rw [← hT0, div_zero, div_zero]
    · exact (div_le_div_iff_of_pos_right hTpos).mpr (sqUpTo_mono kept (by omega))
  · cases hk : kept with
    | nil =>
      simp [cumKinVar, cumSq, hk]
    | cons v ks =>
      rw [← hk, cumKinVar_last allVals kept (by rw [hk]; simp)]
      rcases eq_or_lt_of_le hTnn with hT0 | hTpos
      · rw [← hT0, div_zero]
        norm_num
      · rw [div_le_one hTpos]
        exact hkle
  · intro hrest hT
    subst hrest
    rw [List.append_nil] at h
    rw [h] at hT
    have hne : kept ≠ [] := by
      intro hcontra
      rw [hcontra] at hT
      simp [sqTotal] at hT
    rw [cumKinVar_last allVals kept hne, h, div_self hT]

/-- Dot product of feature vectors. -/
def dotQ {F : ℕ} (u v : Fin F → ℚ) : ℚ := ∑ i, u i * v i

/-- Modelled from the spec: one output coordinate of the model transform —
the frame is mean-removed and projected onto the component vector `u`. -/
def transformCoord {F : ℕ} (mean u : Fin F → ℚ) (x : Fin F → ℚ) : ℚ :=
  dotQ u (fun i => x i - mean i)

/-- Modelled from the spec: kinetic-map scaling of section 4.5 multiplies
each retained vector by its corresponding (eigen/singular) value. -/
def kmScale {F : ℕ} (value : ℚ) (u : Fin F → ℚ) : Fin F → ℚ :=
  fun i => value * u i

/-- Mean of a list of output values. -/
def listMean (ys : List ℚ) : ℚ := ys.sum / (ys.length : ℚ)

/-- Population variance of a list of output values. -/
def listVar (ys : List ℚ) : ℚ :=
  ((ys.map (fun y => sqv (y - listMean ys))).sum) / (ys.length : ℚ)

theorem transformCoord_kmScale {F : ℕ} (mean u : Fin F → ℚ) (value : ℚ)
    (x : Fin F → ℚ) :
    transformCoord mean (kmScale value u) x
      = value * transformCoord mean u x := by
  simp [transformCoord, kmScale, dotQ, Finset.mul_sum, mul_assoc]

theorem listMean_map_mul (c : ℚ) (ys : List ℚ) :
    listMean (ys.map (fun y => c * y)) = c * listMean ys := by
  rw [listMean, listMean]
  have hs : (ys.map (fun y => c * y)).sum = c * ys.sum := by
    have := List.sum_map_mul_left ys (fun y => y) c
    simpa using this
  rw [hs, List.length_map, mul_div_assoc]

theorem listVar_map_mul (c : ℚ) (ys : List ℚ) :
    listVar (ys.map (fun y => c * y)) = sqv c * listVar ys := by
  rw [listVar, listVar, listMean_map_mul, List.length_map]
  have hmap : ((ys.map (fun y => c * y)).map
      (fun y => sqv (y - c * listMean ys)))
      = ys.map (fun y => sqv c * sqv (y - listMean ys)) := by
    rw [List.map_map]
    apply List.map_congr_left
    intro y _
    simp only [Function.comp, sqv]
    ring
  rw [hmap]
  have hs : (ys.map (fun y => sqv c * sqv (y - listMean ys))).sum
      = sqv c * (ys.map (fun y => sqv (y - listMean ys))).sum := by
    have := List.sum_map_mul_left ys (fun y => sqv (y - listMean ys)) (sqv c)
    simpa using this
  rw [hs, mul_div_assoc]

/-- Claim C6: under kinetic-map scaling each retained vector is scaled by its
corresponding value, so whenever the unscaled component has unit variance on
the transformed training data (the normalization the whitening construction
guarantees), the variance of the kinetic-map-scaled coordinate on the same
training data equals the square of the retained value — exactly, in the
rational model, hence within the claimed 0.01 tolerance. -/
theorem tica_kinetic_map_variance {F : ℕ} (data : List (Fin F → ℚ))
    (mean u : Fin F → ℚ) (value : ℚ)
    (h : listVar (data.map (transformCoord mean u)) = 1) :
    listVar (data.map (transformCoord mean (kmScale value u)))
      = sqv value := by
  have hcomp : data.map (transformCoord mean (kmScale value u))
      = (data.map (transformCoord mean u)).map (fun y => value * y) := by
    rw [List.map_map]
    apply List.map_congr_left
    intro x _
    simp only [Function.comp]
    exact transformCoord_kmScale mean u value x
  rw [hcomp, listVar_map_mul, h, mul_one]

/-! ### Concrete witnesses -/

/-- A constant single-feature frame. -/
def wVec (q : ℚ) : Fin 1 → ℚ := fun _ => q

/-- One three-frame trajectory. -/
def wTrajs : List (List (Fin 1 → ℚ)) := [[wVec 1, wVec 2, wVec 3]]

/-- Its lag-1 pairs split across two submission calls. -/
def wParts : List (List ((Fin 1 → ℚ) × (Fin 1 → ℚ))) :=
  [[(wVec 1, wVec 2)], [(wVec 2, wVec 3)]]

theorem tica_accumulation_split_invariant_witness :
    wParts.flatten = (wTrajs.map (lagPairs 1)).flatten
    ∧ (accumulateChunks 1 wParts
          = addChunk (emptyMoments 1) ((wTrajs.map (lagPairs 1)).flatten)
        ∧ mean0 (accumulateChunks 1 wParts)
            = mean0 (addChunk (emptyMoments 1)
                ((wTrajs.map (lagPairs 1)).flatten))
        ∧ cov00 (accumulateChunks 1 wParts)
            = cov00 (addChunk (emptyMoments 1)
                ((wTrajs.map (lagPairs 1)).flatten))
        ∧ cov0t (accumulateChunks 1 wParts)
            = cov0t (addChunk (emptyMoments 1)
                ((wTrajs.map (lagPairs 1)).flatten))) :=
  ⟨rfl, tica_accumulation_split_invariant 1 1 wTrajs wParts rfl⟩

theorem tica_resolved_dim_le_rank_witness :
    validRequest (DimRequest.count 5)
    ∧ (resolveDim (DimRequest.count 5) [2, 1] ≤ ([2, 1] : List ℚ).length
      ∧ ∀ k : ℤ, DimRequest.count 5 = DimRequest.count k
          → resolveDim (DimRequest.count 5) [2, 1]
              = min k.toNat ([2, 1] : List ℚ).length) :=
  ⟨by decide, tica_resolved_dim_le_rank (DimRequest.count 5) [2, 1] (by decide)⟩

theorem tica_fraction_dim_smallest_witness :
    ((0 : ℚ) < 1 ∧ (1 : ℚ) ≤ 1 ∧ ∀ v ∈ ([2, 1, 1] : List ℚ), v ≠ 0)
    ∧ ((1 : ℚ) * sqTotal [2, 1, 1]
          ≤ sqUpTo [2, 1, 1] (resolveDim (DimRequest.fraction 1) [2, 1, 1])
      ∧ (∀ m < resolveDim (DimRequest.fraction 1) [2, 1, 1],
          sqUpTo [2, 1, 1] m < 1 * sqTotal [2, 1, 1])
      ∧ resolveDim (DimRequest.fraction 1) [2, 1, 1]
          = ([2, 1, 1] : List ℚ).length) :=
  ⟨⟨one_pos, le_refl 1, by decide⟩,
    tica_fraction_dim_smallest 1 [2, 1, 1] one_pos (le_refl 1) (by decide)⟩

theorem tica_kinetic_map_variance_witness :
    listVar (([wVec 1, wVec (-1)]).map (transformCoord (wVec 0) (wVec 1))) = 1
    ∧ listVar (([wVec 1, wVec (-1)]).map
        (transformCoord (wVec 0) (kmScale 3 (wVec 1)))) = sqv 3 :=
  ⟨by norm_num [listVar, listMean, transformCoord, dotQ, sqv, wVec],
    tica_kinetic_map_variance [wVec 1, wVec (-1)] (wVec 0) (wVec 1) 3
      (by norm_num [listVar, listMean, transformCoord, dotQ, sqv, wVec])⟩

theorem tica_cumvar_monotone_bounded_witness :
    (([2, 1] : List ℚ) = [2, 1] ++ [])
    ∧ ((∀ i, i < ([2, 1] : List ℚ).length → (cumKinVar [2, 1] [2, 1]).getD i 0
          = sqUpTo [2, 1] (i + 1) / sqTotal [2, 1])
      ∧ (∀ i, i + 1 < ([2, 1] : List ℚ).length →
          (cumKinVar [2, 1] [2, 1]).getD i 0
            ≤ (cumKinVar [2, 1] [2, 1]).getD (i + 1) 0)
      ∧ (cumKinVar [2, 1] [2, 1]).getLastD 0 ≤ 1
      ∧ (([] : List ℚ) = [] → sqTotal ([2, 1] : List ℚ) ≠ 0
          → (cumKinVar [2, 1] [2, 1]).getLastD 0 = 1)) :=
  ⟨rfl, tica_cumvar_monotone_bounded [2, 1] [2, 1] [] rfl⟩

theorem tica_refit_replaces_witness :
    (mean0 (emptyMoments 1) = mean0 (emptyMoments 1)
      ∧ cov00 (emptyMoments 1) = cov00 (emptyMoments 1)
      ∧ cov0t (emptyMoments 1) = cov0t (emptyMoments 1))
    ∧ ∃ M1 M2,
        fetchModel (fitFromStats ⟨DimRequest.unset, 0, none⟩ (emptyMoments 1))
            = some M1
        ∧ fetchModel (fitFromStats
            (fitFromStats ⟨DimRequest.unset, 0, none⟩ (emptyMoments 1))
            (emptyMoments 1)) = some M2
        ∧ M2.m0 = mean0 (emptyMoments 1) ∧ M2.c00 = cov00 (emptyMoments 1)
        ∧ M2.c0t = cov0t (emptyMoments 1)
        ∧ M1 ≠ M2
        ∧ M1.m0 = M2.m0 ∧ M1.c00 = M2.c00 ∧ M1.c0t = M2.c0t :=
  ⟨⟨rfl, rfl, rfl⟩,
    tica_refit_replaces 1 ⟨DimRequest.unset, 0, none⟩ (emptyMoments 1)
      (emptyMoments 1) rfl rfl rfl⟩

/-- Constant unit output probabilities over two hidden states. -/
def wProb : ℕ → Fin 2 → ℚ := fun _ _ => 1

/-- Two trajectories, of lengths 2 and 1. -/
def wDtrajs : List (List ℕ) := [[0, 1], [5]]

theorem gaussian_init_counts_nonneg_total_witness :
    (∀ o ∈ wDtrajs, ∀ x ∈ o, ∀ j, 0 ≤ wProb x j)
    ∧ (∀ o ∈ wDtrajs, ∀ x ∈ o, (∑ k, wProb x k) ≠ 0)
    ∧ ((∀ o ∈ wDtrajs, ∀ t, t < o.length → (∑ j, pnorm 2 wProb o t j) = 1)
      ∧ (∀ i j, 0 ≤ fromDataCounts 2 wProb wDtrajs i j)
      ∧ (∑ i, ∑ j, fromDataCounts 2 wProb wDtrajs i j)
          = (wDtrajs.map (fun o => ((o.length - 1 : ℕ) : ℚ))).sum) := by
  have h1 : ∀ o ∈ wDtrajs, ∀ x ∈ o, ∀ j, 0 ≤ wProb x j := by
    intro o ho x hx j
    exact zero_le_one
  have h2 : ∀ o ∈ wDtrajs, ∀ x ∈ o, (∑ k, wProb x k) ≠ 0 := by
    intro o ho x hx
    simp [wProb]
  exact ⟨h1, h2, gaussian_init_counts_nonneg_total 2 wProb wDtrajs h1 h2⟩
